import Mathlib

/-!
Shallow embedding of the beat-synchronized simulation engine of
`game.py` (Spotify Dash).  Times, positions and velocities are modelled
as rationals (the Python source uses floats and integer milliseconds;
the arithmetic relations under verification are exact, so `ℚ` stands in
for both, eliding float rounding and millisecond truncation).  Fallible
Python list indexing is modelled with `Option`.
-/

namespace SpotifyDash

/-! Constants from the top of `game.py`. -/

/-- `JUMP_BUFFER_TIME = 0.5` : how long jump input is buffered. -/
def JUMP_BUFFER_TIME : ℚ := 1/2

/-- `JUMP_LEAD_TIME = 0.0` : spikes collide exactly on the beat. -/
def JUMP_LEAD_TIME : ℚ := 0

/-- Scroll speed used by `run_game` (`speed = 330`). -/
def speed : ℚ := 330

/-- The player's fixed horizontal position in `run_game` (`px = 250`). -/
def px : ℚ := 250

/-- Player bounding-box height (`player_h = 50`). -/
def player_h : ℚ := 50

/-! Obstacles (`class Spike`, `class Platform`). -/

/-- `Spike(collision_time, height_blocks)`: `height_blocks = 0` is a
ground spike, `height_blocks = 1` an overhead spike. -/
structure Spike where
  collision_time : ℚ
  height_blocks : ℕ
deriving DecidableEq, Repr

/-- `Spike.x(self, now, speed)`. -/
def Spike.x (s : Spike) (now sp : ℚ) : ℚ :=
  (s.collision_time - now) * sp + 250

/-- `Platform(collision_time)`. -/
structure Platform where
  collision_time : ℚ
deriving DecidableEq, Repr

/-- `Platform.x(self, now, speed)`. -/
def Platform.x (p : Platform) (now sp : ℚ) : ℚ :=
  (p.collision_time - now) * sp + 250

/-! Level builder (`build_level`).  The Python loop walks `jump_beats`
with `enumerate`, appending to two accumulator lists; the recursion
below carries the running index. -/

/-- Body of `build_level`, carrying the `enumerate` index `i`. -/
def buildLevelAux : ℕ → List ℚ → List Spike × List Platform
  | _, [] => ([], [])
  | i, b :: rest =>
    let r := buildLevelAux (i + 1) rest
    if i % 6 = 2 ∨ i % 6 = 5 then
      (r.1, ⟨b + JUMP_LEAD_TIME⟩ :: r.2)
    else if i % 8 = 4 then
      (⟨b + JUMP_LEAD_TIME, 1⟩ :: r.1, r.2)
    else
      (⟨b + JUMP_LEAD_TIME, 0⟩ :: r.1, r.2)

/-- `build_level(jump_beats)` returns `(spikes, platforms)`. -/
def build_level (jump_beats : List ℚ) : List Spike × List Platform :=
  buildLevelAux 0 jump_beats

/-- Per-index obstacle classification implied by the `build_level`
branch priority: platform when `i % 6 ∈ \x7b2, 5\x7d`, else overhead spike
when `i % 8 = 4`, else ground spike. -/
inductive ObstacleKind where
  | ground
  | overhead
  | plat
deriving DecidableEq, Repr

/-- The priority rule as a function of the beat index alone. -/
def obstacleClass (i : ℕ) : ObstacleKind :=
  if i % 6 = 2 ∨ i % 6 = 5 then .plat
  else if i % 8 = 4 then .overhead
  else .ground

/-- The spike (if any) emitted for beat index `i` with timestamp `b`. -/
def spikeAt (i : ℕ) (b : ℚ) : Option Spike :=
  match obstacleClass i with
  | .plat => none
  | .overhead => some ⟨b + JUMP_LEAD_TIME, 1⟩
  | .ground => some ⟨b + JUMP_LEAD_TIME, 0⟩

/-- The platform (if any) emitted for beat index `i` with timestamp `b`. -/
def platformAt (i : ℕ) (b : ℚ) : Option Platform :=
  match obstacleClass i with
  | .plat => some ⟨b + JUMP_LEAD_TIME⟩
  | _ => none

/-! Envelope sampler (`sample_envelope`) and `bisect.bisect_left`. -/

/-- CPython `bisect.bisect_left` loop: binary search narrowing
`[lo, hi)` with midpoint `(lo + hi) / 2`. -/
def bisectGo (a : List ℚ) (x : ℚ) (lo hi : ℕ) : ℕ :=
  if lo < hi then
    if a.getD ((lo + hi) / 2) 0 < x then bisectGo a x ((lo + hi) / 2 + 1) hi
    else bisectGo a x lo ((lo + hi) / 2)
  else lo
termination_by hi - lo
decreasing_by
  · omega
  · omega

/-- `bisect.bisect_left(a, x)` over the whole list. -/
def bisect_left (a : List ℚ) (x : ℚ) : ℕ :=
  bisectGo a x 0 a.length

/-- Tail of `sample_envelope` after the bracketing pair is fetched:
`if t1 <= t0: return v1` else linear interpolation by
`alpha = (t - t0) / (t1 - t0)`. -/
def interpStep (t0 t1 v0 v1 t : ℚ) : ℚ :=
  if t1 ≤ t0 then v1
  else v0 + (t - t0) / (t1 - t0) * (v1 - v0)

/-- `sample_envelope(env_times, env_vals, t)`.  Python indexing of
`env_vals` can raise `IndexError` when the two arrays are not parallel,
modelled by `none`; `env_vals[-1]` is `getLast?`. -/
def sample_envelope (env_times env_vals : List ℚ) (t : ℚ) : Option ℚ :=
  match env_times with
  | [] => some 0
  | tf :: rest =>
    if t ≤ tf then env_vals.head?
    else if rest.getLastD tf ≤ t then env_vals.getLast?
    else
      let i := bisect_left (tf :: rest) t
      if i = 0 then env_vals.head?
      else if (tf :: rest).length ≤ i then env_vals.getLast?
      else
        match (tf :: rest)[i-1]?, (tf :: rest)[i]?,
              env_vals[i-1]?, env_vals[i]? with
        | some t0, some t1, some v0, some v1 => some (interpStep t0 t1 v0 v1 t)
        | _, _, _, _ => none

/-! Clock synchronizer state in `run_game`.  The source keeps
`level_start_ms` (captured once before the loop), `audio_started`, and
`music_start_ms` (captured when playback is commanded, line 1007, and
reset on resume, line 1037).  Every frame computes
`game_elapsed = now - level_start` and `song_time = game_elapsed -
start_delay` (lines 1002 and 1014). -/

structure ClockState where
  level_start : ℚ
  audio_started : Bool
  music_start : ℚ
deriving DecidableEq, Repr

/-- Result of one frame of the clock logic: updated state, `song_time`,
and `elapsed_audio`. -/
structure FrameClock where
  state : ClockState
  song_time : ℚ
  elapsed_audio : ℚ
deriving DecidableEq, Repr

/-- One frame of the clock logic of `run_game` (lines 999-1014) at wall
time `now`: start audio once `game_elapsed ≥ start_delay`, capturing
`music_start`; compute `elapsed_audio` and `song_time`. -/
def clockFrame (start_delay : ℚ) (s : ClockState) (now : ℚ) : FrameClock :=
  let game_elapsed := now - s.level_start
  let s1 :=
    if ¬ s.audio_started ∧ game_elapsed ≥ start_delay then
      { s with audio_started := true, music_start := now }
    else s
  let elapsed_audio := if s1.audio_started then now - s1.music_start else 0
  { state := s1, song_time := game_elapsed - start_delay,
    elapsed_audio := elapsed_audio }

/-- Resume branch of the pause handler (lines 1035-1039): when audio had
started, set `music_start = now - elapsed_audio` (the `elapsed_audio`
value captured on the frame that opened the pause menu) and unpause.
`level_start` is not touched. -/
def clockResume (s : ClockState) (elapsed_audio now : ℚ) : ClockState :=
  if s.audio_started then { s with music_start := now - elapsed_audio }
  else s

/-! Platform landing and ground clamp (`run_game` lines 1073-1093). -/

/-- Outcome of the landing/ground block: player top `py`, vertical
velocity `vy`, `effective_ground`, `standing`. -/
structure PhysOut where
  py : ℚ
  vy : ℚ
  effective_ground : ℚ
  standing : Bool
deriving DecidableEq, Repr

/-- Landing condition for one platform at horizontal position `x`
(lines 1082-1083): top edge `ground_y - 60` crossed between the
previous and current player bottom, and horizontal overlap with the
player rectangle `[px, px + 50)` against `[x, x + 120)`. -/
def landHit (ground_y py_prev py_now x : ℚ) : Bool :=
  (py_prev + player_h ≤ ground_y - 60) && (ground_y - 60 ≤ py_now + player_h)
    && (px + 50 > x) && (px < x + 120)

/-- Lines 1073-1093: when `vy ≥ 0`, scan the (already trimmed, in
order) platform positions for the first landing hit and snap onto it;
then the fallback ground clamp against `effective_ground`. -/
def platformLanding (ground_y : ℚ) (py_prev py vy : ℚ)
    (platXs : List ℚ) : PhysOut :=
  let base : PhysOut :=
    if 0 ≤ vy then
      match platXs.find? (landHit ground_y py_prev py) with
      | some _ =>
        { py := (ground_y - 60) - player_h, vy := 0,
          effective_ground := ground_y - 60, standing := true }
      | none => { py := py, vy := vy, effective_ground := ground_y,
                  standing := false }
    else { py := py, vy := vy, effective_ground := ground_y,
           standing := false }
  if base.effective_ground - player_h ≤ base.py then
    { py := base.effective_ground - player_h, vy := 0,
      effective_ground := base.effective_ground, standing := true }
  else base

/-! Jump buffering (`run_game` lines 1095-1103). -/

/-- Gravity and jump-impulse constants of `run_game`. -/
def gravity : ℚ := 38/100

/-- `jump = -11`. -/
def jumpImpulse : ℚ := -11

/-- Result of the jump-buffer block: `vy`, `py`, pending request,
jump count. -/
structure JumpOut where
  vy : ℚ
  py : ℚ
  jump_req : Option ℚ
  jumps : ℕ
deriving DecidableEq, Repr

/-- Lines 1095-1103: with a pending request `t0` and not game over, if
`logic_time - t0 ≤ JUMP_BUFFER_TIME` then fire when standing (impulse,
snap to effective ground, consume, count) and otherwise keep the
request pending; past the window, discard the request. -/
def jumpBufferStep (logic_time : ℚ) (jump_req : Option ℚ)
    (game_over standing : Bool) (vy py effective_ground : ℚ)
    (jumps : ℕ) : JumpOut :=
  match jump_req with
  | none => ⟨vy, py, none, jumps⟩
  | some t0 =>
    if game_over then ⟨vy, py, some t0, jumps⟩
    else if logic_time - t0 ≤ JUMP_BUFFER_TIME then
      if standing then
        ⟨jumpImpulse, effective_ground - player_h, none, jumps + 1⟩
      else ⟨vy, py, some t0, jumps⟩
    else ⟨vy, py, none, jumps⟩

/-! Off-screen trimming (`run_game` lines 1063-1071 and 1150-1158):
platforms are kept while `pf.x(song_time, speed) > -140`, spikes while
`sp.x(song_time, speed) > -80`. -/

/-- Platform trim filter (lines 1064-1071). -/
def trimPlatforms (ps : List Platform) (song_time : ℚ) : List Platform :=
  ps.filter fun pf => -140 < pf.x song_time speed

/-- Spike trim filter (lines 1150-1158). -/
def trimSpikes (ss : List Spike) (song_time : ℚ) : List Spike :=
  ss.filter fun sp => -80 < sp.x song_time speed

/-! Helper lemmas. -/

/-- `buildLevelAux` is the per-index classification mapped over the
enumerated beats. -/
theorem buildLevelAux_eq (beats : List ℚ) :
    ∀ i, buildLevelAux i beats =
      ((beats.enumFrom i).filterMap fun p => spikeAt p.1 p.2,
       (beats.enumFrom i).filterMap fun p => platformAt p.1 p.2) := by
  induction beats with
  | nil => intro i; simp [buildLevelAux]
  | cons b rest ih =>
    intro i
    simp only [buildLevelAux, List.enumFrom_cons, List.filterMap_cons, ih (i + 1)]
    by_cases h1 : i % 6 = 2 ∨ i % 6 = 5
    · simp [spikeAt, platformAt, obstacleClass, h1]
    · by_cases h2 : i % 8 = 4 <;>
        simp [spikeAt, platformAt, obstacleClass, h1, h2]

/-- Each enumerated beat contributes exactly one obstacle. -/
theorem buildLevelAux_length (beats : List ℚ) :
    ∀ i, (buildLevelAux i beats).1.length + (buildLevelAux i beats).2.length
      = beats.length := by
  induction beats with
  | nil => intro i; simp [buildLevelAux]
  | cons b rest ih =>
    intro i
    have h := ih (i + 1)
    simp only [buildLevelAux]
    split_ifs <;> simp <;> omega


/-- Invariant of the CPython `bisect_left` loop, by induction on the
fuel `n ≥ hi - lo`: the result stays in `[lo, hi]`, every advance of
`lo` records an element `< x` just below it, every shrink of `hi`
records an element `≥ x` at it. -/
theorem bisectGo_bounds (a : List ℚ) (x : ℚ) :
    ∀ (n lo hi : ℕ), hi - lo ≤ n → lo ≤ hi → hi ≤ a.length →
      (0 < lo → a.getD (lo - 1) 0 < x) →
      (hi < a.length → x ≤ a.getD hi 0) →
      lo ≤ bisectGo a x lo hi ∧ bisectGo a x lo hi ≤ hi ∧
      (0 < bisectGo a x lo hi → a.getD (bisectGo a x lo hi - 1) 0 < x) ∧
      (bisectGo a x lo hi < a.length → x ≤ a.getD (bisectGo a x lo hi) 0) := by
  intro n
  induction n with
  | zero =>
    intro lo hi hfuel hlohi hhi hlo0 hhix
    have heq : lo = hi := by omega
    subst heq
    rw [bisectGo.eq_def]
    simp only [lt_irrefl, if_false]
    exact ⟨le_refl _, le_refl _, hlo0, hhix⟩
  | succ n ih =>
    intro lo hi hfuel hlohi hhi hlo0 hhix
    rw [bisectGo.eq_def]
    by_cases h : lo < hi
    · simp only [h, if_true]
      by_cases hmid : a.getD ((lo + hi) / 2) 0 < x
      · simp only [hmid, if_true]
        have hr := ih ((lo + hi) / 2 + 1) hi (by omega) (by omega) hhi
          (fun _ => by
            have : (lo + hi) / 2 + 1 - 1 = (lo + hi) / 2 := by omega
            rw [this]; exact hmid)
          hhix
        exact ⟨by omega, hr.2.1, hr.2.2.1, hr.2.2.2⟩
      · simp only [hmid, if_false]
        have hr := ih lo ((lo + hi) / 2) (by omega) (by omega) (by omega)
          hlo0 (fun _ => le_of_not_lt hmid)
        exact ⟨hr.1, by omega, hr.2.2.1, hr.2.2.2⟩
    · have heq : lo = hi := by omega
      subst heq
      simp only [h, if_false]
      exact ⟨le_refl _, le_refl _, hlo0, hhix⟩

/-- Boundary property of `bisect_left`: the elements adjacent to the
returned index bracket `x` (on any list, sorted or not). -/
theorem bisect_left_bounds (a : List ℚ) (x : ℚ) :
    bisect_left a x ≤ a.length ∧
    (0 < bisect_left a x → a.getD (bisect_left a x - 1) 0 < x) ∧
    (bisect_left a x < a.length → x ≤ a.getD (bisect_left a x) 0) := by
  have h := bisectGo_bounds a x a.length 0 a.length (by omega) (by omega)
    (le_refl _) (fun h0 => absurd h0 (lt_irrefl 0))
    (fun hl => absurd hl (lt_irrefl _))
  exact ⟨h.2.1, h.2.2.1, h.2.2.2⟩

/-- Strictly sorted lists are strictly monotone in `getD`. -/
theorem sorted_getD_lt {l : List ℚ} (h : l.Pairwise (· < ·)) {i j : ℕ}
    (hij : i < j) (hj : j < l.length) : l.getD i 0 < l.getD j 0 := by
  have hi : i < l.length := lt_trans hij hj
  rw [List.getD_eq_getElem l 0 hi, List.getD_eq_getElem l 0 hj]
  exact List.pairwise_iff_getElem.mp h i j hi hj hij

/-- Strictly sorted lists are monotone in `getD`. -/
theorem sorted_getD_le {l : List ℚ} (h : l.Pairwise (· < ·)) {i j : ℕ}
    (hij : i ≤ j) (hj : j < l.length) : l.getD i 0 ≤ l.getD j 0 := by
  rcases Nat.lt_or_ge i j with hlt | hge
  · exact le_of_lt (sorted_getD_lt h hlt hj)
  · have : i = j := by omega
    rw [this]

/-- On a strictly sorted list, `bisect_left` finds the bracketing
index: if `times[j] < t ≤ times[j+1]` it returns `j + 1`. -/
theorem bisect_left_eq (times : List ℚ) (t : ℚ) (hs : times.Pairwise (· < ·))
    (j : ℕ) (hj : j + 1 < times.length)
    (h1 : times.getD j 0 < t) (h2 : t ≤ times.getD (j + 1) 0) :
    bisect_left times t = j + 1 := by
  obtain ⟨hr1, hr2, hr3⟩ := bisect_left_bounds times t
  by_contra hne
  rcases Nat.lt_or_ge (bisect_left times t) (j + 1) with hlt | hge
  · have hrn : bisect_left times t < times.length := by omega
    have ha := hr3 hrn
    have hb : times.getD (bisect_left times t) 0 ≤ times.getD j 0 :=
      sorted_getD_le hs (by omega) (by omega)
    linarith
  · have h0r : 0 < bisect_left times t := by omega
    have ha := hr2 h0r
    have hb : times.getD (j + 1) 0 ≤ times.getD (bisect_left times t - 1) 0 :=
      sorted_getD_le hs (by omega) (by omega)
    linarith

/-- Python `env_times[-1]` as a `getD` of the last index. -/
theorem getLastD_eq_getD (tf : ℚ) (rest : List ℚ) :
    rest.getLastD tf = (tf :: rest).getD ((tf :: rest).length - 1) 0 := by
  induction rest generalizing tf with
  | nil => rfl
  | cons r rs ih =>
    rw [List.getLastD_cons, ih r]
    simp [List.getD]

/-- Left clamp branch of `sample_envelope`. -/
theorem sample_envelope_left (times vals : List ℚ) (t : ℚ)
    (hne : times ≠ []) (hlen : vals.length = times.length)
    (hle : t ≤ times.getD 0 0) :
    sample_envelope times vals t = some (vals.getD 0 0) := by
  cases times with
  | nil => exact absurd rfl hne
  | cons tf rest =>
    cases vals with
    | nil => simp at hlen
    | cons v vs =>
      have htf : (tf :: rest).getD 0 0 = tf := rfl
      rw [htf] at hle
      simp only [sample_envelope, if_pos hle]
      rfl

/-- Right clamp branch of `sample_envelope`. -/
theorem sample_envelope_right (times vals : List ℚ) (t : ℚ)
    (hs : times.Pairwise (· < ·)) (hlen : vals.length = times.length)
    (hne : times ≠ [])
    (hge : times.getD (times.length - 1) 0 ≤ t) :
    sample_envelope times vals t =
      some (vals.getD (vals.length - 1) 0) := by
  cases times with
  | nil => exact absurd rfl hne
  | cons tf rest =>
    have hvne : vals ≠ [] := by
      intro h; rw [h] at hlen; simp at hlen
    by_cases hg1 : t ≤ tf
    · have hone : rest.length = 0 := by
        by_contra hr
        have h01 : (tf :: rest).getD 0 0 <
            (tf :: rest).getD ((tf :: rest).length - 1) 0 :=
          sorted_getD_lt hs (by simp; omega) (by simp)
        have htf : (tf :: rest).getD 0 0 = tf := rfl
        rw [htf] at h01
        linarith
      have hv1 : vals.length = 1 := by simp [hone] at hlen; omega
      cases vals with
      | nil => exact absurd rfl hvne
      | cons v vs =>
        simp only [sample_envelope, if_pos hg1]
        simp at hv1
        simp [hv1]
    · have hlast : rest.getLastD tf ≤ t := by
        rw [getLastD_eq_getD tf rest]; exact hge
      simp only [sample_envelope]
      rw [if_neg hg1, if_pos hlast]
      rw [List.getLast?_eq_getLast vals hvne]
      rw [List.getLast_eq_getElem vals hvne]
      rw [List.getD_eq_getElem vals 0 (by
        cases vals with
        | nil => exact absurd rfl hvne
        | cons v vs => simp)]

/-- Interpolation branch of `sample_envelope`: with strictly sorted
times and `times[j] < t ≤ times[j+1]` (and `t` strictly before the
last sample), the result is `interpStep` on the bracketing pair. -/
theorem sample_envelope_mid (times vals : List ℚ) (t : ℚ)
    (hs : times.Pairwise (· < ·)) (hlen : vals.length = times.length)
    (j : ℕ) (hj : j + 1 < times.length)
    (h1 : times.getD j 0 < t) (h2 : t ≤ times.getD (j + 1) 0)
    (hlast : t < times.getD (times.length - 1) 0) :
    sample_envelope times vals t =
      some (interpStep (times.getD j 0) (times.getD (j + 1) 0)
        (vals.getD j 0) (vals.getD (j + 1) 0) t) := by
  cases times with
  | nil => simp at hj
  | cons tf rest =>
    have hg1 : ¬ t ≤ tf := by
      have h0j : (tf :: rest).getD 0 0 ≤ (tf :: rest).getD j 0 :=
        sorted_getD_le hs (Nat.zero_le j) (by omega)
      have htf : (tf :: rest).getD 0 0 = tf := rfl
      rw [htf] at h0j
      push_neg
      linarith
    have hg2 : ¬ rest.getLastD tf ≤ t := by
      rw [getLastD_eq_getD tf rest]
      push_neg
      exact hlast
    have hbis : bisect_left (tf :: rest) t = j + 1 :=
      bisect_left_eq (tf :: rest) t hs j hj h1 h2
    have e1 : (tf :: rest)[j]? = some ((tf :: rest).getD j 0) := by
      rw [List.getD_eq_getElem (tf :: rest) 0
        (show j < (tf :: rest).length by omega)]
      exact List.getElem?_eq_getElem _
    have e2 : (tf :: rest)[j + 1]? = some ((tf :: rest).getD (j + 1) 0) := by
      rw [List.getD_eq_getElem (tf :: rest) 0 hj]
      exact List.getElem?_eq_getElem _
    have e3 : vals[j]? = some (vals.getD j 0) := by
      rw [List.getD_eq_getElem vals 0 (show j < vals.length by omega)]
      exact List.getElem?_eq_getElem _
    have e4 : vals[j + 1]? = some (vals.getD (j + 1) 0) := by
      rw [List.getD_eq_getElem vals 0 (show j + 1 < vals.length by omega)]
      exact List.getElem?_eq_getElem _
    simp only [sample_envelope]
    rw [if_neg hg1, if_neg hg2, hbis]
    rw [if_neg (show ¬ j + 1 = 0 by omega)]
    rw [if_neg (show ¬ (tf :: rest).length ≤ j + 1 from by omega)]
    rw [show j + 1 - 1 = j from rfl]
    rw [e1, e2, e3, e4]

/-- `interpStep` queried exactly at the right endpoint of a proper
bracket returns the right value. -/
theorem interpStep_at_right (t0 t1 v0 v1 : ℚ) (h : t0 < t1) :
    interpStep t0 t1 v0 v1 t1 = v1 := by
  rw [interpStep, if_neg (not_le.mpr h)]
  have hne : t1 - t0 ≠ 0 := ne_of_gt (sub_pos.mpr h)
  field_simp


end SpotifyDash

namespace SpotifyDash

/-! Claim theorems. -/

/-- C1 (counterexample): after audio has been commanded to start (first
conjunct), the authoritative `song_time` of a later frame differs from
`now - audio_start_reference`: the code keeps computing
`song_time = game_elapsed - start_delay` from the render reference.
Run: `level_start = 0`, `start_delay = 1`; the frame at `now = 21/20`
starts audio and captures `music_start = 21/20`; at the frame
`now = 2`, `song_time = 1` but `now - music_start = 19/20`. -/
theorem song_time_not_audio_referenced :
    (clockFrame 1 ⟨0, false, 0⟩ (21/20)).state.audio_started = true ∧
    (clockFrame 1 (clockFrame 1 ⟨0, false, 0⟩ (21/20)).state 2).song_time ≠
      2 - (clockFrame 1 ⟨0, false, 0⟩ (21/20)).state.music_start := by
  norm_num [clockFrame]

/-- C1 (amended): on every frame — before and after audio start — the
authoritative `song_time` equals `game_elapsed - start_delay` computed
from the render reference; it is independent of the audio-start
reference and of the `audio_started` flag (states agreeing on
`level_start` give identical `song_time`), not of `game_elapsed`. -/
theorem song_time_render_clock_only (d : ℚ) (s1 s2 : ClockState) (now : ℚ)
    (h : s1.level_start = s2.level_start) :
    (clockFrame d s1 now).song_time = (clockFrame d s2 now).song_time ∧
    (clockFrame d s1 now).song_time = now - s1.level_start - d := by
  simp [clockFrame, h]

/-- Witness for `song_time_render_clock_only` at concrete states
differing in audio reference and flag. -/
theorem song_time_render_clock_only_witness :
    (clockFrame 1 ⟨0, true, 5⟩ 3).song_time =
      (clockFrame 1 ⟨0, false, 0⟩ 3).song_time ∧
    (clockFrame 1 ⟨0, true, 5⟩ 3).song_time = 3 - 0 - 1 :=
  song_time_render_clock_only 1 ⟨0, true, 5⟩ ⟨0, false, 0⟩ 3 rfl

/-- C2 (code bug): pause/resume is not `song_time`-continuous.  Run
with `level_start = 0`, `start_delay = 1`, audio started at `1`: the
frame at `now = 3` has `song_time = 2` and `elapsed_audio = 2`; the
pause menu then blocks for one real second and the resume handler sets
`music_start = 4 - 2 = 2`.  On the first frame after resume
(`now = 4`) the audio clock is continuous (`elapsed_audio = 2`) but
`song_time = 3`: the simulation jumped forward by the pause duration,
because `level_start` is never advanced. -/
theorem pause_resume_song_time_jump :
    (clockFrame 1 ⟨0, true, 1⟩ 3).song_time = 2 ∧
    (clockFrame 1 ⟨0, true, 1⟩ 3).elapsed_audio = 2 ∧
    (clockFrame 1 (clockResume (clockFrame 1 ⟨0, true, 1⟩ 3).state
        (clockFrame 1 ⟨0, true, 1⟩ 3).elapsed_audio 4) 4).elapsed_audio = 2 ∧
    (clockFrame 1 (clockResume (clockFrame 1 ⟨0, true, 1⟩ 3).state
        (clockFrame 1 ⟨0, true, 1⟩ 3).elapsed_audio 4) 4).song_time = 3 := by
  norm_num [clockFrame, clockResume]

/-- C3: `build_level` is exactly the per-index classification mapped
over the enumerated beats — exactly one obstacle per beat index, with
`collision_time = b + JUMP_LEAD_TIME`, platform when
`i % 6 ∈ \x7b2, 5\x7d`, else overhead spike when `i % 8 = 4`, else ground
spike — and it is a pure function of its input (determinism). -/
theorem build_level_spec (beats : List ℚ) :
    build_level beats =
      (beats.enum.filterMap fun p => spikeAt p.1 p.2,
       beats.enum.filterMap fun p => platformAt p.1 p.2) ∧
    (build_level beats).1.length + (build_level beats).2.length
      = beats.length ∧
    (∀ i b, i % 6 = 2 ∨ i % 6 = 5 →
      platformAt i b = some ⟨b + JUMP_LEAD_TIME⟩ ∧ spikeAt i b = none) ∧
    (∀ i b, ¬(i % 6 = 2 ∨ i % 6 = 5) → i % 8 = 4 →
      spikeAt i b = some ⟨b + JUMP_LEAD_TIME, 1⟩ ∧ platformAt i b = none) ∧
    (∀ i b, ¬(i % 6 = 2 ∨ i % 6 = 5) → i % 8 ≠ 4 →
      spikeAt i b = some ⟨b + JUMP_LEAD_TIME, 0⟩ ∧ platformAt i b = none) ∧
    (∀ beats2, beats = beats2 → build_level beats = build_level beats2) := by
  refine ⟨buildLevelAux_eq beats 0, buildLevelAux_length beats 0,
    ?_, ?_, ?_, fun _ h => h ▸ rfl⟩
  · intro i b h1
    simp [platformAt, spikeAt, obstacleClass, h1]
  · intro i b h1 h2
    simp [platformAt, spikeAt, obstacleClass, h1, h2]
  · intro i b h1 h2
    simp [platformAt, spikeAt, obstacleClass, h1, h2]

/-- Witness for `build_level_spec` at a concrete five-beat input,
exercising all three branches of the priority rule. -/
theorem build_level_spec_witness :
    build_level [0, 0, 0, 0, 0] =
      ([0, 0, 0, 0, 0].enum.filterMap fun p => spikeAt p.1 p.2,
       [0, 0, 0, 0, 0].enum.filterMap fun p => platformAt p.1 p.2) ∧
    spikeAt 4 0 = some ⟨0 + JUMP_LEAD_TIME, 1⟩ ∧
    platformAt 2 0 = some ⟨0 + JUMP_LEAD_TIME⟩ ∧
    spikeAt 0 0 = some ⟨0 + JUMP_LEAD_TIME, 0⟩ := by
  have h := build_level_spec [0, 0, 0, 0, 0]
  exact ⟨h.1, (h.2.2.2.1 4 0 (by decide) (by decide)).1,
    (h.2.2.1 2 0 (by decide)).1, (h.2.2.2.2.1 0 0 (by decide) (by decide)).1⟩

/-- C4: on a frame with non-negative vertical velocity, if some
platform in the (ordered, trimmed) list satisfies the landing condition
— top edge between previous and current player bottom, horizontal
overlap — the player's bottom is snapped to the platform top
(`py = (ground_y - 60) - player_h`), vertical velocity is zeroed, and
the player is grounded with that top as `effective_ground`; the scan is
`List.find?`, so the first matching platform in iteration order wins
(all platform tops equal `ground_y - 60`, so the snap target is the
same whichever matches). -/
theorem platform_landing_snaps (ground_y py_prev py vy : ℚ)
    (platXs : List ℚ) (hvy : 0 ≤ vy)
    (hex : ∃ x ∈ platXs, landHit ground_y py_prev py x = true) :
    platformLanding ground_y py_prev py vy platXs =
      ⟨(ground_y - 60) - player_h, 0, ground_y - 60, true⟩ := by
  have hsome : (platXs.find? (landHit ground_y py_prev py)).isSome :=
    List.find?_isSome.mpr hex
  obtain ⟨x, hx⟩ := Option.isSome_iff_exists.mp hsome
  simp [platformLanding, hx, hvy]

/-- Witness for `platform_landing_snaps`: `ground_y = 600`, previous
bottom `530`, current bottom `545` crossing the platform top `540`,
platform at `x = 230` overlapping the player. -/
theorem platform_landing_snaps_witness :
    platformLanding 600 480 495 5 [230] = ⟨490, 0, 540, true⟩ := by
  have h := platform_landing_snaps 600 480 495 5 [230] (by norm_num)
    ⟨230, by norm_num, by norm_num [landHit, px, player_h]⟩
  rw [h]
  norm_num [player_h]

/-- C5: with a pending jump request from `t0` and the game not over, a
frame at logic time `t1` fires the jump exactly when landing within the
buffer window (`t1 - t0 ≤ JUMP_BUFFER_TIME` and standing): impulse
applied, player re-snapped to the effective ground, request consumed,
jump count incremented.  Within the window while airborne the request
is kept pending; past the window it is discarded without firing. -/
theorem jump_buffer_spec (t0 t1 vy py eg : ℚ) (jumps : ℕ) :
    (t1 - t0 ≤ JUMP_BUFFER_TIME →
      jumpBufferStep t1 (some t0) false true vy py eg jumps =
        ⟨jumpImpulse, eg - player_h, none, jumps + 1⟩) ∧
    (t1 - t0 ≤ JUMP_BUFFER_TIME →
      jumpBufferStep t1 (some t0) false false vy py eg jumps =
        ⟨vy, py, some t0, jumps⟩) ∧
    (JUMP_BUFFER_TIME < t1 - t0 → ∀ st : Bool,
      jumpBufferStep t1 (some t0) false st vy py eg jumps =
        ⟨vy, py, none, jumps⟩) := by
  refine ⟨fun h => ?_, fun h => ?_, fun h st => ?_⟩
  · simp [jumpBufferStep, h]
  · simp [jumpBufferStep, h]
  · simp [jumpBufferStep, not_le.mpr h]

/-- Witness for `jump_buffer_spec`: a request at `t0 = 0` fires on
landing at `t1 = 1/2` (window boundary) and is discarded at `t1 = 1`. -/
theorem jump_buffer_spec_witness :
    jumpBufferStep (1/2) (some 0) false true 5 550 540 0 =
      ⟨jumpImpulse, 540 - player_h, none, 1⟩ ∧
    jumpBufferStep 1 (some 0) false true 5 550 540 0 =
      ⟨5, 550, none, 0⟩ := by
  constructor
  · exact (jump_buffer_spec 0 (1/2) 5 550 540 0).1
      (by norm_num [JUMP_BUFFER_TIME])
  · exact (jump_buffer_spec 0 1 5 550 540 0).2.2
      (by norm_num [JUMP_BUFFER_TIME]) true

/-- C7 (counterexample): on `BeatTimeline = [1,2,3,4,5,6]` with the
code's `JUMP_LEAD_TIME = 0`, the spike emitted at beat index 4 is an
overhead spike (`height_blocks = 1`, since `4 % 8 = 4`), contradicting
the claim that indices \x7b0,1,3,4\x7d are ground spikes with no overhead
spike among indices 0 through 5. -/
theorem six_beat_level_counterexample :
    build_level [1, 2, 3, 4, 5, 6] =
      ([⟨1, 0⟩, ⟨2, 0⟩, ⟨4, 0⟩, ⟨5, 1⟩], [⟨3⟩, ⟨6⟩]) ∧
    ∃ s ∈ (build_level [1, 2, 3, 4, 5, 6]).1, s.height_blocks = 1 := by
  refine ⟨?_, ⟨5, 1⟩, ?_, rfl⟩ <;>
    norm_num [build_level, buildLevelAux, JUMP_LEAD_TIME]

/-- C7 (amended): on `BeatTimeline = [1,2,3,4,5,6]` with
`lead_time = 0`, the level has ground spikes at indices \x7b0,1,3\x7d, an
overhead spike at index 4 (`4 % 8 = 4`), and platforms at indices
\x7b2,5\x7d. -/
theorem six_beat_level :
    build_level [1, 2, 3, 4, 5, 6] =
      ([⟨1, 0⟩, ⟨2, 0⟩, ⟨4, 0⟩, ⟨5, 1⟩], [⟨3⟩, ⟨6⟩]) := by
  norm_num [build_level, buildLevelAux, JUMP_LEAD_TIME]

/-- C8: every obstacle's horizontal position is
`(collision_time - now) * scroll_speed + 250`, and at
`now = collision_time` it equals the player's fixed horizontal
position `px = 250`, for every scroll speed. -/
theorem obstacle_position_formula (s : Spike) (p : Platform) (sp now : ℚ) :
    s.x now sp = (s.collision_time - now) * sp + 250 ∧
    p.x now sp = (p.collision_time - now) * sp + 250 ∧
    s.x s.collision_time sp = px ∧
    p.x p.collision_time sp = px := by
  simp [Spike.x, Platform.x, px]

/-- C9 (counterexample): a malformed non-empty EnvelopeCurve is not
flattened to a constant `0.0`: with non-increasing times `[1, 0]` and
values `[1, 1]`, the query `t = 0` returns `1`; with mismatched array
lengths (`times = [1]`, `values = []`) the sampler fails
(`IndexError`, modelled as `none`) instead of returning `0.0`. -/
theorem malformed_envelope_counterexample :
    sample_envelope [1, 0] [1, 1] 0 = some 1 ∧ (1 : ℚ) ≠ 0 ∧
    sample_envelope [1] [] 0 = none := by
  refine ⟨?_, by norm_num, ?_⟩ <;> norm_num [sample_envelope]

/-- C9 (amended): for a zero-length EnvelopeCurve (empty time array)
the sampler returns a constant `0.0` for every query time and every
value array, without failing. -/
theorem empty_envelope_constant_zero (vals : List ℚ) (t : ℚ) :
    sample_envelope [] vals t = some 0 := rfl

/-- C10: off-screen trimming never removes an obstacle before its
collision moment.  Trimming keeps a spike while its position exceeds
`-80` and a platform while it exceeds `-140`; any obstacle with
`collision_time ≥ song_time` has position `≥ 250` and survives
trimming; a spike is removed only once `song_time` exceeds its
collision time by at least `1` second, a platform by at least
`390/330` seconds. -/
theorem trim_keeps_upcoming (ss : List Spike) (ps : List Platform) (t : ℚ) :
    (∀ s ∈ ss, t ≤ s.collision_time →
      s ∈ trimSpikes ss t ∧ 250 ≤ s.x t speed) ∧
    (∀ p ∈ ps, t ≤ p.collision_time →
      p ∈ trimPlatforms ps t ∧ 250 ≤ p.x t speed) ∧
    (∀ s ∈ ss, s ∉ trimSpikes ss t → s.collision_time + 1 ≤ t) ∧
    (∀ p ∈ ps, p ∉ trimPlatforms ps t → p.collision_time + 390/330 ≤ t) := by
  refine ⟨fun s hs hts => ⟨?_, ?_⟩, fun p hp htp => ⟨?_, ?_⟩,
    fun s hs hns => ?_, fun p hp hnp => ?_⟩
  · refine List.mem_filter.mpr ⟨hs, ?_⟩
    simp only [decide_eq_true_eq, Spike.x, speed]
    nlinarith
  · simp only [Spike.x, speed]
    nlinarith
  · refine List.mem_filter.mpr ⟨hp, ?_⟩
    simp only [decide_eq_true_eq, Platform.x, speed]
    nlinarith
  · simp only [Platform.x, speed]
    nlinarith
  · by_contra hc
    refine hns (List.mem_filter.mpr ⟨hs, ?_⟩)
    simp only [decide_eq_true_eq, Spike.x, speed]
    nlinarith [not_le.mp hc]
  · by_contra hc
    refine hnp (List.mem_filter.mpr ⟨hp, ?_⟩)
    simp only [decide_eq_true_eq, Platform.x, speed]
    nlinarith [not_le.mp hc]

/-- Witness for `trim_keeps_upcoming` at a one-spike, one-platform
level queried at `song_time = 0`. -/
theorem trim_keeps_upcoming_witness :
    (Spike.mk 1 0 ∈ trimSpikes [⟨1, 0⟩] 0 ∧
      250 ≤ (Spike.mk 1 0).x 0 speed) ∧
    (Platform.mk 1 ∈ trimPlatforms [⟨1⟩] 0 ∧
      250 ≤ (Platform.mk 1).x 0 speed) :=
  ⟨(trim_keeps_upcoming [⟨1, 0⟩] [⟨1⟩] 0).1 ⟨1, 0⟩ (by simp) (by norm_num),
   (trim_keeps_upcoming [⟨1, 0⟩] [⟨1⟩] 0).2.1 ⟨1⟩ (by simp) (by norm_num)⟩

/-- C6: for a non-empty EnvelopeCurve with strictly increasing times
and parallel values, the sampler clamps at or before the first sample
to the first value, at or after the last sample to the last value, and
otherwise linearly interpolates the bracketing pair by fractional
position; a degenerate bracket with equal (or reversed) timestamps
returns the later value; a query exactly at a sample time returns that
sample value exactly.  The witness instantiates the scenario
`times = [0,1,2]`, `values = [0,1,0]`. -/
theorem sample_envelope_spec (times vals : List ℚ) (t : ℚ)
    (hne : times ≠ []) (hlen : vals.length = times.length)
    (hs : times.Pairwise (· < ·)) :
    (t ≤ times.getD 0 0 → sample_envelope times vals t = some (vals.getD 0 0)) ∧
    (times.getD (times.length - 1) 0 ≤ t →
      sample_envelope times vals t = some (vals.getD (vals.length - 1) 0)) ∧
    (∀ j, j + 1 < times.length → times.getD j 0 < t → t < times.getD (j + 1) 0 →
      sample_envelope times vals t =
        some (vals.getD j 0 + (t - times.getD j 0) /
          (times.getD (j + 1) 0 - times.getD j 0) *
          (vals.getD (j + 1) 0 - vals.getD j 0))) ∧
    (∀ t0 t1 v0 v1 tq : ℚ, t1 ≤ t0 → interpStep t0 t1 v0 v1 tq = v1) ∧
    (∀ j, j < times.length →
      sample_envelope times vals (times.getD j 0) = some (vals.getD j 0)) := by
  refine ⟨fun h => sample_envelope_left times vals t hne hlen h,
    fun h => sample_envelope_right times vals t hs hlen hne h,
    fun j hj h1 h2 => ?_, fun t0 t1 v0 v1 tq h => by rw [interpStep, if_pos h],
    fun j hjn => ?_⟩
  · have hlast : t < times.getD (times.length - 1) 0 :=
      lt_of_lt_of_le h2 (sorted_getD_le hs (by omega) (by omega))
    have hmid := sample_envelope_mid times vals t hs hlen j hj h1 (le_of_lt h2) hlast
    rw [hmid, interpStep, if_neg (not_le.mpr (sorted_getD_lt hs (by omega) hj))]
  · by_cases hj0 : j = 0
    · subst hj0
      exact sample_envelope_left times vals _ hne hlen (le_refl _)
    · by_cases hjl : j = times.length - 1
      · have hv : vals.length - 1 = j := by omega
        have h := sample_envelope_right times vals (times.getD j 0) hs hlen hne
          (by rw [hjl])
        rw [h, hv]
      · have hj1 : j - 1 + 1 = j := by omega
        have hmid := sample_envelope_mid times vals (times.getD j 0) hs hlen
          (j - 1) (by omega) ?_ ?_ ?_
        · rw [hj1] at hmid
          rw [hmid]
          exact congrArg some (interpStep_at_right _ _ _ _
            (sorted_getD_lt hs (by omega) (by omega)))
        · exact sorted_getD_lt hs (by omega) (by omega)
        · rw [hj1]
        · exact sorted_getD_lt hs (by omega) (by omega)

/-- Witness for `sample_envelope_spec` on the spec scenario
`times = [0,1,2]`, `values = [0,1,0]`: `sample(0.5) = 0.5`,
`sample(1.5) = 0.5`, `sample(-1) = 0`, `sample(10) = 0`, and the exact
sample time `t = 1` returns `1` exactly. -/
theorem sample_envelope_spec_witness :
    sample_envelope [0, 1, 2] [0, 1, 0] (1/2) = some (1/2) ∧
    sample_envelope [0, 1, 2] [0, 1, 0] (3/2) = some (1/2) ∧
    sample_envelope [0, 1, 2] [0, 1, 0] (-1) = some 0 ∧
    sample_envelope [0, 1, 2] [0, 1, 0] 10 = some 0 ∧
    sample_envelope [0, 1, 2] [0, 1, 0] 1 = some 1 := by
  have hne : ([0, 1, 2] : List ℚ) ≠ [] := by simp
  have hlen : ([0, 1, 0] : List ℚ).length = ([0, 1, 2] : List ℚ).length := rfl
  have hs : ([0, 1, 2] : List ℚ).Pairwise (· < ·) := by
    norm_num [List.pairwise_cons]
  refine ⟨?_, ?_, ?_, ?_, ?_⟩
  · have h := (sample_envelope_spec [0, 1, 2] [0, 1, 0] (1/2) hne hlen hs).2.2.1
      0 (by norm_num) (by norm_num) (by norm_num)
    rw [h]; norm_num
  · have h := (sample_envelope_spec [0, 1, 2] [0, 1, 0] (3/2) hne hlen hs).2.2.1
      1 (by norm_num) (by norm_num) (by norm_num)
    rw [h]; norm_num
  · have h := (sample_envelope_spec [0, 1, 2] [0, 1, 0] (-1) hne hlen hs).1
      (by norm_num)
    rw [h]; rfl
  · have h := (sample_envelope_spec [0, 1, 2] [0, 1, 0] 10 hne hlen hs).2.1
      (by norm_num)
    rw [h]; rfl
  · have h := (sample_envelope_spec [0, 1, 2] [0, 1, 0] 1 hne hlen hs).2.2.2.2
      1 (by norm_num)
    simpa using h

end SpotifyDash
